import Mathlib

/-!
Verification of the eukleides library: the geometry primitives of
`geometry.py`, the convex-hull container and polytope-regression engine of
`convex.py`, and the numerical integrators of `gradient_updates.py`.

Modelling conventions: Python/numpy floats are modelled by real numbers;
1-D numpy arrays are modelled by `List ℝ` for the geometry module (where
shapes may disagree) and by `Fin n → ℝ` for the regression engine (where
all arrays share the hull's sizes); the `np.random.normal` initialisation
of `polyreg` is modelled by an explicit initial-coefficient parameter;
logging statements are omitted (they do not affect control flow or the
returned values).
-/

/-! ### 1. Vectors as lists, and `geometry.py` -/

/-- `np.dot` on two 1-D arrays of equal length: sum of pairwise products. -/
def dotL (a b : List ℝ) : ℝ :=
  (List.zipWith (fun x y => x * y) a b).sum

/-- `geometry.HyperPlane`: affine space of codimension 1, defined by its
normal vector and constant, so that x belongs to the plane iff
`normal ⋅ x = constant`. -/
structure HyperPlane where
  normal : List ℝ
  constant : ℝ

/-- The class attribute `HyperPlane.tol = 1e-8`. -/
def HyperPlane.tol : ℝ := 1e-8

/-- `HyperPlane.contains`: true iff `|np.dot(normal, point) - constant| < tol`.
The `assert self.dim == point.shape` of the source is modelled as a
dimension-match hypothesis on the theorems that use this. -/
def HyperPlane.contains (H : HyperPlane) (point : List ℝ) : Prop :=
  |dotL H.normal point - H.constant| < HyperPlane.tol

/-- `HyperPlane.project`: `t = (np.dot(point, normal) - constant) / np.dot(normal, normal)`,
returns `point - t * normal` (elementwise). -/
noncomputable def HyperPlane.project (H : HyperPlane) (point : List ℝ) : List ℝ :=
  let t := (dotL point H.normal - H.constant) / dotL H.normal H.normal
  List.zipWith (fun p v => p - t * v) point H.normal

/-- The data of a `LinearConstraint` in either module: a hyperplane plus a
`side` string. The constructor in both modules asserts
`side in {'eq', 'leq', 'geq'}`; that assertion is a hypothesis on the
theorems about already-constructed objects. -/
structure LinearConstraint where
  normal : List ℝ
  constant : ℝ
  side : String

/-- `geometry.LinearConstraint.contains`: for side `'eq'` it delegates to
`HyperPlane.contains` (via `super()`); for `'leq'`/`'geq'` it compares
`np.dot(normal, point)` against `constant ± tol`; any other side raises
(`none` models the raised `ValueError`). -/
def geometry_lc_contains (c : LinearConstraint) (point : List ℝ) : Option Prop :=
  if c.side = "eq" then some (HyperPlane.contains ⟨c.normal, c.constant⟩ point)
  else
    if c.side = "leq" then some (dotL c.normal point ≤ c.constant + HyperPlane.tol)
    else
      if c.side = "geq" then some (dotL c.normal point ≥ c.constant - HyperPlane.tol)
      else none

/-- `convex.LinearConstraint.check`: for side `'eq'` it returns
`self.contains(point)`, which is the `HyperPlane.contains` inherited from
`geometry.HyperPlane`; for `'leq'`/`'geq'` it compares
`np.dot(normal, point)` against `constant ± tol`; any other side raises
(`none` models the raised `ValueError`). -/
def convex_lc_check (c : LinearConstraint) (point : List ℝ) : Option Prop :=
  if c.side = "eq" then some (HyperPlane.contains ⟨c.normal, c.constant⟩ point)
  else
    if c.side = "leq" then some (dotL c.normal point ≤ c.constant + HyperPlane.tol)
    else
      if c.side = "geq" then some (dotL c.normal point ≥ c.constant - HyperPlane.tol)
      else none

/-! ### 2. `convex.ConvexHull` as a stateful object: construction and the
lazily cached `base` property.

The Python object holds a mutable `points` list and a `_base` cache that
starts as `None`; the `base` property computes `np.array(points).T` on
first read and stores it.  We model the object state explicitly and the
`base` property as a state transition returning the read value. -/

/-- The value `np.array(points).T` for a list of 1-D points: row `j` of the
result collects coordinate `j` of every point, so column `i` is `points[i]`.
The number of rows is the dimensionality of the first point. -/
def baseOf (points : List (List ℝ)) : List (List ℝ) :=
  (List.range (points.headD []).length).map (fun j => points.map (fun p => p.getD j 0))

/-- The state of a `convex.ConvexHull` object: the `points` attribute and
the `_base` cache attribute. -/
structure HullState where
  points : List (List ℝ)
  base_cache : Option (List (List ℝ))

/-- The state produced by `ConvexHull.__init__` once its assertion passed:
`self.points = points`, `self._base = None`. -/
def hull_init (points : List (List ℝ)) : HullState := ⟨points, none⟩

/-- The dimension check of `ConvexHull.__init__`:
`all(dim == _dimensions[0] for dim in _dimensions)`.  On an empty point
list the generator yields nothing, so `all` is true and `_dimensions[0]`
is never evaluated. -/
def hull_dims_ok (points : List (List ℝ)) : Bool :=
  match points with
  | [] => true
  | p :: _ => points.all (fun v => v.length == p.length)

/-- `ConvexHull.__init__` including its assertion: `none` models the
`AssertionError`. -/
def ConvexHull_init (points : List (List ℝ)) : Option HullState :=
  if hull_dims_ok points then some (hull_init points) else none

/-- The `base` property: return the cache if present, otherwise compute
`np.array(points).T`, store it, and return it. -/
def read_base (s : HullState) : List (List ℝ) × HullState :=
  match s.base_cache with
  | some b => (b, s)
  | none => (baseOf s.points, ⟨s.points, some (baseOf s.points)⟩)

/-- Mutation of the `points` attribute after construction (Python does not
prevent it); the `_base` cache attribute is untouched by such a mutation. -/
def set_points (s : HullState) (ps : List (List ℝ)) : HullState := ⟨ps, s.base_cache⟩

/-- The `num_points` property: `len(self.points)`. -/
def num_points (s : HullState) : ℕ := s.points.length

/-! ### 3. The regression engine of `convex.py` over sized vectors.

For the numerics we fix the sizes: a hull of `n` points in `ℝ^d`. -/

/-- A well-formed `convex.ConvexHull` as consumed by the regression engine:
`n` points in dimension `d`. -/
structure ConvexHull (d n : ℕ) where
  points : Fin n → Fin d → ℝ

/-- The `base` matrix `np.array(points).T`: entry `(i, k)` is coordinate
`i` of point `k`, so column `k` is `points[k]`. -/
def ConvexHull.base {d n : ℕ} (hull : ConvexHull d n) : Matrix (Fin d) (Fin n) ℝ :=
  Matrix.of fun i k => hull.points k i

/-- `np.dot` on two same-length 1-D arrays. -/
def dotV {m : ℕ} (a b : Fin m → ℝ) : ℝ := ∑ i, a i * b i

/-- `convex.softmax`: `np.exp(x) / np.sum(np.exp(x))` elementwise. -/
noncomputable def softmax {n : ℕ} (x : Fin n → ℝ) : Fin n → ℝ :=
  fun i => Real.exp (x i) / ∑ k, Real.exp (x k)

/-- `convex.get_convex_combination`: `hull.base @ softmax(lin_coefs)`. -/
noncomputable def get_convex_combination {d n : ℕ} (hull : ConvexHull d n)
    (lin_coefs : Fin n → ℝ) : Fin d → ℝ :=
  hull.base.mulVec (softmax lin_coefs)

/-- `convex.calc_error`: `target - get_convex_combination(hull, lin_coefs)`. -/
noncomputable def calc_error {d n : ℕ} (hull : ConvexHull d n) (target : Fin d → ℝ)
    (lin_coefs : Fin n → ℝ) : Fin d → ℝ :=
  target - get_convex_combination hull lin_coefs

/-- `convex.calc_loss`: `np.dot(err, err)` for the error vector. -/
noncomputable def calc_loss {d n : ℕ} (hull : ConvexHull d n) (target : Fin d → ℝ)
    (lin_coeffs : Fin n → ℝ) : ℝ :=
  dotV (calc_error hull target lin_coeffs) (calc_error hull target lin_coeffs)

/-- `convex.comb_gradient`: `np.diag(coefs) - outer(coefs, coefs)` with
`coefs = softmax(lin_coefs)`. -/
noncomputable def comb_gradient {n : ℕ} (lin_coefs : Fin n → ℝ) : Matrix (Fin n) (Fin n) ℝ :=
  Matrix.diagonal (softmax lin_coefs) -
    Matrix.of (fun k l => softmax lin_coefs k * softmax lin_coefs l)

/-- `convex.loss_gradient`: `-(calc_error(...) @ hull.base) @ comb_gradient(lin_coefs)`. -/
noncomputable def loss_gradient {d n : ℕ} (hull : ConvexHull d n) (target : Fin d → ℝ)
    (lin_coefs : Fin n → ℝ) : Fin n → ℝ :=
  Matrix.vecMul (-(Matrix.vecMul (calc_error hull target lin_coefs) hull.base))
    (comb_gradient lin_coefs)

/-! ### 4. `gradient_updates.py` -/

/-- The `Gradient` callable type of `gradient_updates.py`. -/
abbrev Gradient (n : ℕ) : Type := (Fin n → ℝ) → (Fin n → ℝ)

/-- The common signature of the integrators:
`(value, gradient_func, alpha) -> increment`. -/
abbrev UpdateMethod (n : ℕ) : Type := (Fin n → ℝ) → Gradient n → ℝ → (Fin n → ℝ)

/-- `gradient_updates.euler_update`: `alpha * gradient_func(value)`. -/
def euler_update {n : ℕ} (value : Fin n → ℝ) (gradient_func : Gradient n)
    (alpha : ℝ) : Fin n → ℝ :=
  fun i => alpha * gradient_func value i

/-- `gradient_updates.improved_euler_update`. -/
def improved_euler_update {n : ℕ} (value : Fin n → ℝ) (gradient_func : Gradient n)
    (alpha : ℝ) : Fin n → ℝ :=
  let first_gradient := gradient_func value
  let second_gradient := gradient_func (fun i => value i + alpha * first_gradient i)
  fun i => 0.5 * alpha * (first_gradient i + second_gradient i)

/-- `gradient_updates.runge_kutta_update`. -/
noncomputable def runge_kutta_update {n : ℕ} (value : Fin n → ℝ) (gradient_func : Gradient n)
    (alpha : ℝ) : Fin n → ℝ :=
  let first_gradient := gradient_func value
  let second_gradient := gradient_func (fun i => value i + 0.5 * alpha * first_gradient i)
  let third_gradient := gradient_func (fun i => value i + 0.5 * alpha * second_gradient i)
  let fourth_gradient := gradient_func (fun i => value i + alpha * third_gradient i)
  fun i => (alpha / 6.0) *
    (first_gradient i + 2.0 * second_gradient i + 2.0 * third_gradient i + fourth_gradient i)

/-! ### 5. `convex.polyreg` -/

/-- The `inverse_gradient` closure defined inside `polyreg`. -/
noncomputable def inverse_gradient {d n : ℕ} (hull : ConvexHull d n)
    (target : Fin d → ℝ) : Gradient n :=
  fun lin_coefs => -loss_gradient hull target lin_coefs

/-- The loop-carried state of `polyreg`: the current `lin_coefs`, the
current step size `alpha`, and `prev_loss`. -/
structure PRState (n : ℕ) where
  lin_coefs : Fin n → ℝ
  alpha : ℝ
  prev_loss : ℝ

/-- The outcome of one iteration of the `polyreg` loop body: `done` when
the `break` fires (carrying the returned coefficients), `next` otherwise. -/
inductive StepResult (n : ℕ) where
  | done (lin_coefs : Fin n → ℝ)
  | next (s : PRState n)

/-- One iteration of the `polyreg` loop body: compute the pre-update
`loss`; save `old_lin_coefs`; apply the update; `break` if `loss < tol`;
otherwise back off (`alpha *= 0.9` and revert `lin_coefs`) when
`loss > prev_loss`, else record `prev_loss = loss`. -/
noncomputable def polyregStep {d n : ℕ} (hull : ConvexHull d n) (target : Fin d → ℝ)
    (update_method : UpdateMethod n) (tol : ℝ) (s : PRState n) : StepResult n :=
  let loss := calc_loss hull target s.lin_coefs
  let old_lin_coefs := s.lin_coefs
  let new_lin_coefs :=
    s.lin_coefs + update_method s.lin_coefs (inverse_gradient hull target) s.alpha
  if loss < tol then StepResult.done new_lin_coefs
  else
    if loss > s.prev_loss then StepResult.next ⟨old_lin_coefs, s.alpha * 0.9, s.prev_loss⟩
    else StepResult.next ⟨new_lin_coefs, s.alpha, loss⟩

/-- The `for i in range(max_iter)` loop of `polyreg`, by remaining
iteration count: on exhaustion the current `lin_coefs` is returned, on
`break` the updated coefficients are returned. -/
noncomputable def polyregLoop {d n : ℕ} (hull : ConvexHull d n) (target : Fin d → ℝ)
    (update_method : UpdateMethod n) (tol : ℝ) : ℕ → PRState n → (Fin n → ℝ)
  | 0, s => s.lin_coefs
  | k + 1, s =>
    match polyregStep hull target update_method tol s with
    | StepResult.done c => c
    | StepResult.next s1 => polyregLoop hull target update_method tol k s1

/-- The state reached after `k` non-breaking iterations of the `polyreg`
loop (`none` once the loop has broken out). -/
noncomputable def polyregIter {d n : ℕ} (hull : ConvexHull d n) (target : Fin d → ℝ)
    (update_method : UpdateMethod n) (tol : ℝ) : ℕ → PRState n → Option (PRState n)
  | 0, s => some s
  | k + 1, s =>
    match polyregStep hull target update_method tol s with
    | StepResult.done _ => none
    | StepResult.next s1 => polyregIter hull target update_method tol k s1

/-- `convex.polyreg`: the random initial `lin_coefs`
(`np.random.normal(size=hull.num_points, scale=0.001)`) is modelled by the
explicit parameter `init_lin_coefs`; `prev_loss` starts at the sentinel
`100000.0`. -/
noncomputable def polyreg {d n : ℕ} (hull : ConvexHull d n) (target : Fin d → ℝ)
    (init_lin_coefs : Fin n → ℝ) (alpha : ℝ) (tol : ℝ) (max_iter : ℕ)
    (update_method : UpdateMethod n) : Fin n → ℝ :=
  polyregLoop hull target update_method tol max_iter ⟨init_lin_coefs, alpha, 100000⟩

/-! ### 6. Concrete instances used by witnesses and counterexamples -/

/-- A one-point hull `{[0.0]}` in dimension 1. -/
def hull1 : ConvexHull 1 1 := ⟨fun _ _ => 0⟩

/-- The target `[0.0]`. -/
def target_zero : Fin 1 → ℝ := fun _ => 0

/-- The target `[20.0]`. -/
def target_twenty : Fin 1 → ℝ := fun _ => 20

/-- The target `[400.0]`. -/
def target_big : Fin 1 → ℝ := fun _ => 400

/-- The state `polyreg` starts from (zero initial coefficients, default
`alpha = 1.0`, sentinel `prev_loss = 100000.0`). -/
def st0 : PRState 1 := ⟨fun _ => 0, 1, 100000⟩

/-- A mid-run state with `prev_loss = 100.0`. -/
def st_mid : PRState 1 := ⟨fun _ => 0, 1, 100⟩

/-- Hull with points `[1.0]` and `[0.0]` in dimension 1, used to evaluate
the loss gradient concretely. -/
def hullC3 : ConvexHull 1 2 := ⟨fun k _ => if k = 0 then 1 else 0⟩

/-- The target `[1.0]` for the gradient evaluation. -/
def targetC3 : Fin 1 → ℝ := fun _ => 1

/-- The coefficient vector `[0.0, 0.0]` for the gradient evaluation. -/
def xC3 : Fin 2 → ℝ := fun _ => 0

/-- The plane `x = 0.5` in dimension 3 (normal `[1,0,0]`, constant `0.5`). -/
noncomputable def hplane1 : HyperPlane := ⟨[1, 0, 0], 1 / 2⟩

/-- The point `[2.0, 6.0, 2.0]`. -/
def p8 : List ℝ := [2, 6, 2]

/-! ### 7. Helper lemmas -/

theorem dotL_nil_right (a : List ℝ) : dotL a [] = 0 := by
  cases a <;> rfl

theorem dotL_cons (x y : ℝ) (xs ys : List ℝ) :
    dotL (x :: xs) (y :: ys) = x * y + dotL xs ys := by
  simp [dotL]

theorem dotL_comm (a b : List ℝ) : dotL a b = dotL b a := by
  induction a generalizing b with
  | nil => cases b <;> simp [dotL]
  | cons x xs ih =>
    cases b with
    | nil => simp [dotL]
    | cons y ys => rw [dotL_cons, dotL_cons, ih, mul_comm]

theorem dotL_self_nonneg (a : List ℝ) : 0 ≤ dotL a a := by
  induction a with
  | nil => simp [dotL]
  | cons x xs ih =>
    rw [dotL_cons]
    exact add_nonneg (mul_self_nonneg x) ih

theorem dotL_self_pos (a : List ℝ) (h : ∃ x ∈ a, x ≠ 0) : 0 < dotL a a := by
  induction a with
  | nil => simp at h
  | cons x xs ih =>
    rw [dotL_cons]
    rcases h with ⟨y, hy, hy0⟩
    rcases List.mem_cons.mp hy with rfl | hmem
    · exact add_pos_of_pos_of_nonneg (mul_self_pos.mpr hy0) (dotL_self_nonneg xs)
    · exact add_pos_of_nonneg_of_pos (mul_self_nonneg x) (ih ⟨y, hmem, hy0⟩)

theorem dotL_sub_smul (t : ℝ) (v p : List ℝ) (hlen : v.length = p.length) :
    dotL v (List.zipWith (fun a b => a - t * b) p v) = dotL v p - t * dotL v v := by
  induction v generalizing p with
  | nil => simp [dotL]
  | cons x xs ih =>
    cases p with
    | nil => simp at hlen
    | cons y ys =>
      simp only [List.zipWith_cons_cons, dotL_cons]
      rw [ih ys (by simpa using hlen)]
      ring

theorem getD_range_map (l : List ℝ) :
    (List.range l.length).map (fun j => l.getD j 0) = l := by
  apply List.ext_getElem
  · simp
  · intro i h1 h2
    simp [List.getD_eq_getElem?_getD, List.getElem?_eq_getElem h2]

/-! ### 8. Claim theorems -/

/-- C4: for every real vector of length `n ≥ 1`, `softmax` has all entries
strictly positive and they sum to 1, so `softmax x` lies in the standard
simplex regardless of the range of `x`. -/
theorem C4_softmax_simplex {n : ℕ} (hn : 1 ≤ n) (x : Fin n → ℝ) :
    (∀ i, 0 < softmax x i) ∧ ∑ i, softmax x i = 1 := by
  have hne : Nonempty (Fin n) := ⟨⟨0, hn⟩⟩
  have hS : 0 < ∑ k, Real.exp (x k) :=
    Finset.sum_pos (fun k _ => Real.exp_pos (x k)) Finset.univ_nonempty
  constructor
  · intro i
    exact div_pos (Real.exp_pos _) hS
  · simp only [softmax]
    rw [← Finset.sum_div, div_self hS.ne']

theorem C4_witness :
    1 ≤ 2 ∧ ((∀ i, 0 < softmax (fun _ : Fin 2 => (0 : ℝ)) i) ∧
      ∑ i, softmax (fun _ : Fin 2 => (0 : ℝ)) i = 1) :=
  ⟨by norm_num, C4_softmax_simplex (by norm_num) (fun _ : Fin 2 => (0 : ℝ))⟩

/-- C7 (amended): construction fails whenever the points do not all share
identical dimensionality; a successfully constructed hull has
`num_points = len(points)`, which is at least 1 for non-empty input; the
empty point list, however, is accepted (with `num_points = 0`), because the
assertion's generator is empty. -/
theorem C7_hull_construction (points : List (List ℝ)) :
    (¬ (∀ p ∈ points, ∀ q ∈ points, p.length = q.length) →
      ConvexHull_init points = none) ∧
    (∀ h, ConvexHull_init points = some h →
      num_points h = points.length ∧ (points ≠ [] → 1 ≤ num_points h)) := by
  constructor
  · intro hne
    have hnot : ¬ (hull_dims_ok points = true) := by
      intro hok
      apply hne
      intro p hp q hq
      cases points with
      | nil => cases hp
      | cons a as =>
        simp only [hull_dims_ok, List.all_eq_true, beq_iff_eq] at hok
        rw [hok p hp, hok q hq]
    simp [ConvexHull_init, hnot]
  · intro h hh
    unfold ConvexHull_init at hh
    by_cases hok : hull_dims_ok points
    · rw [if_pos hok] at hh
      cases hh
      refine ⟨rfl, fun hne => ?_⟩
      simpa [num_points, hull_init] using List.length_pos.mpr hne
    · rw [if_neg hok] at hh
      cases hh

theorem C7_witness :
    ConvexHull_init [[(0 : ℝ)], [0, 0]] = none ∧
    (num_points (hull_init [[(0 : ℝ)]]) = 1 ∧
      ([[(0 : ℝ)]] ≠ ([] : List (List ℝ)) → 1 ≤ num_points (hull_init [[(0 : ℝ)]]))) := by
  constructor
  · apply (C7_hull_construction [[(0 : ℝ)], [0, 0]]).1
    intro hall
    have h01 : [(0 : ℝ)] ∈ [[(0 : ℝ)], [0, 0]] := by simp
    have h02 : [(0 : ℝ), 0] ∈ [[(0 : ℝ)], [0, 0]] := by simp
    have := hall [(0 : ℝ)] h01 [(0 : ℝ), 0] h02
    simp at this
  · exact (C7_hull_construction [[(0 : ℝ)]]).2 (hull_init [[(0 : ℝ)]]) rfl

theorem C7_counterexample :
    ConvexHull_init ([] : List (List ℝ)) = some (hull_init []) ∧
      num_points (hull_init []) = 0 :=
  ⟨rfl, rfl⟩

/-- C6 (amended): `base` is the stacked matrix whose column `i` is
`points[i]` (for dimensionally consistent points); it is computed on the
first read and cached, so repeated reads on an unmodified hull return an
identical matrix; but a mutation of the point list after a read is NOT
invalidated: a subsequent read returns the stale cached matrix. -/
theorem C6_base_caching :
    (∀ (points : List (List ℝ)) (i : ℕ),
      (∀ q ∈ points, q.length = (points.headD []).length) → i < points.length →
      (baseOf points).map (fun row => row.getD i 0) = points.getD i []) ∧
    (∀ points : List (List ℝ), (read_base (hull_init points)).1 = baseOf points) ∧
    (∀ s : HullState, (read_base (read_base s).2).1 = (read_base s).1) ∧
    (∀ (s : HullState) (b : List (List ℝ)) (ps : List (List ℝ)),
      s.base_cache = some b → (read_base (set_points s ps)).1 = b) := by
  refine ⟨?_, ?_, ?_, ?_⟩
  · intro points i hwf hi
    unfold baseOf
    rw [List.map_map]
    have hgd : points.getD i [] = points[i] := by
      rw [List.getD_eq_getElem?_getD, List.getElem?_eq_getElem hi]
      rfl
    have hcol : ∀ j : ℕ,
        (points.map (fun p => p.getD j 0)).getD i 0 = (points.getD i []).getD j 0 := by
      intro j
      rw [hgd, List.getD_eq_getElem?_getD, List.getElem?_map, List.getElem?_eq_getElem hi]
      rfl
    have hlen : (points.getD i []).length = (points.headD []).length := by
      rw [hgd]
      exact hwf (points[i]) (List.getElem_mem hi)
    calc (List.range (points.headD []).length).map
          ((fun row => row.getD i 0) ∘ fun j => points.map (fun p => p.getD j 0))
        = (List.range (points.getD i []).length).map (fun j => (points.getD i []).getD j 0) := by
          rw [hlen]
          exact List.map_congr_left (fun j _ => hcol j)
      _ = points.getD i [] := getD_range_map _
  · intro points
    rfl
  · intro s
    rcases s with ⟨pts, _ | b⟩ <;> rfl
  · intro s b ps h
    rcases s with ⟨pts, cache⟩
    cases cache with
    | none => cases h
    | some b2 =>
      cases h
      rfl

theorem C6_witness :
    ((∀ q ∈ [[(0 : ℝ)]], q.length = ([[(0 : ℝ)]].headD []).length) ∧ 0 < [[(0 : ℝ)]].length ∧
      (baseOf [[(0 : ℝ)]]).map (fun row => row.getD 0 0) = [[(0 : ℝ)]].getD 0 []) ∧
    (((read_base (hull_init [[(0 : ℝ)]])).2).base_cache = some (baseOf [[(0 : ℝ)]]) ∧
      (read_base (set_points (read_base (hull_init [[(0 : ℝ)]])).2 [[1]])).1 = baseOf [[(0 : ℝ)]]) := by
  refine ⟨⟨by simp, by norm_num, ?_⟩, rfl, ?_⟩
  · exact C6_base_caching.1 [[(0 : ℝ)]] 0 (by simp) (by norm_num)
  · exact C6_base_caching.2.2.2 (read_base (hull_init [[(0 : ℝ)]])).2 (baseOf [[(0 : ℝ)]]) [[1]] rfl

theorem C6_counterexample :
    (read_base (set_points (read_base (hull_init [[(0 : ℝ)]])).2 [[1]])).1 ≠
      baseOf (set_points (read_base (hull_init [[(0 : ℝ)]])).2 [[1]]).points := by
  have hr : List.range 1 = [0] := rfl
  norm_num [read_base, hull_init, set_points, baseOf, hr, List.getElem?_cons_zero]

/-- C8: for every hyperplane with a nonzero normal and every point of
matching dimension, the projection of the point lies on the hyperplane
(`contains` of `project` holds): the projection formula lands exactly on
`normal ⋅ x = constant`, well within the `1e-8` tolerance. -/
theorem C8_project_round_trip (H : HyperPlane) (p : List ℝ)
    (hnz : ∃ x ∈ H.normal, x ≠ 0) (hdim : H.normal.length = p.length) :
    H.contains (H.project p) := by
  have hpos := dotL_self_pos H.normal hnz
  unfold HyperPlane.contains HyperPlane.project
  rw [dotL_sub_smul _ _ _ hdim]
  rw [div_mul_cancel₀ _ hpos.ne', dotL_comm H.normal p]
  have h0 : dotL p H.normal - (dotL p H.normal - H.constant) - H.constant = 0 := by ring
  rw [h0, abs_zero]
  norm_num [HyperPlane.tol]

theorem C8_witness :
    (∃ x ∈ hplane1.normal, x ≠ 0) ∧ hplane1.normal.length = p8.length ∧
      hplane1.contains (hplane1.project p8) := by
  have hnz : ∃ x ∈ hplane1.normal, x ≠ 0 := ⟨1, by simp [hplane1], one_ne_zero⟩
  exact ⟨hnz, rfl, C8_project_round_trip hplane1 p8 hnz rfl⟩

/-- C10: on identically constructed constraints (any normal, constant, a
valid side, and a point of matching dimension), `convex.LinearConstraint.check`
and `geometry.LinearConstraint.contains` return the same result: the two
modules' duplicate implementations are equivalent. -/
theorem C10_check_contains_equiv (normal : List ℝ) (constant : ℝ) (side : String)
    (point : List ℝ) (_hside : side = "eq" ∨ side = "leq" ∨ side = "geq")
    (_hdim : normal.length = point.length) :
    convex_lc_check ⟨normal, constant, side⟩ point =
      geometry_lc_contains ⟨normal, constant, side⟩ point := rfl

theorem C10_witness :
    ("leq" = "eq" ∨ "leq" = "leq" ∨ "leq" = "geq") ∧
    [(1 : ℝ), 1].length = [(0.3 : ℝ), 0.7].length ∧
    convex_lc_check ⟨[(1 : ℝ), 1], 1, "leq"⟩ [0.3, 0.7] =
      geometry_lc_contains ⟨[(1 : ℝ), 1], 1, "leq"⟩ [0.3, 0.7] :=
  ⟨Or.inr (Or.inl rfl), rfl,
    C10_check_contains_equiv [(1 : ℝ), 1] 1 "leq" [0.3, 0.7] (Or.inr (Or.inl rfl)) rfl⟩

/-! ### 9. Claims about the `polyreg` control loop -/

/-- C1: if the pre-update loss at the current iteration is below `tol`, the
loop breaks at this iteration and `polyreg` returns the `lin_coefs` that
already include this iteration's update (one update ahead of the loss that
triggered the stop); the convergence test fires before the backoff test, so
no backoff is applied on the stopping iteration (the step is a `done`, not
a backoff transition). -/
theorem C1_convergence_pre_update_loss {d n : ℕ} (hull : ConvexHull d n)
    (target : Fin d → ℝ) (update_method : UpdateMethod n) (tol : ℝ) (s : PRState n)
    (h : calc_loss hull target s.lin_coefs < tol) :
    polyregStep hull target update_method tol s =
      StepResult.done
        (s.lin_coefs + update_method s.lin_coefs (inverse_gradient hull target) s.alpha) ∧
    ∀ k, polyregLoop hull target update_method tol (k + 1) s =
      s.lin_coefs + update_method s.lin_coefs (inverse_gradient hull target) s.alpha := by
  have hstep : polyregStep hull target update_method tol s =
      StepResult.done
        (s.lin_coefs + update_method s.lin_coefs (inverse_gradient hull target) s.alpha) := by
    simp only [polyregStep]
    rw [if_pos h]
  refine ⟨hstep, fun k => ?_⟩
  simp only [polyregLoop, hstep]

theorem C1_witness :
    calc_loss hull1 target_zero st0.lin_coefs < 1 / 100 ∧
    polyregLoop hull1 target_zero euler_update (1 / 100) (4 + 1) st0 =
      st0.lin_coefs + euler_update st0.lin_coefs (inverse_gradient hull1 target_zero) st0.alpha := by
  have h : calc_loss hull1 target_zero st0.lin_coefs < 1 / 100 := by
    norm_num [calc_loss, dotV, calc_error, get_convex_combination, ConvexHull.base,
      Matrix.mulVec, Matrix.dotProduct, hull1, target_zero, st0]
  exact ⟨h,
    (C1_convergence_pre_update_loss hull1 target_zero euler_update (1 / 100) st0 h).2 4⟩

/-- Helper: a non-breaking step of the `polyreg` loop never increases
`prev_loss` or `alpha` (and keeps `alpha` non-negative). -/
theorem polyregStep_next_monotone {d n : ℕ} (hull : ConvexHull d n) (target : Fin d → ℝ)
    (update_method : UpdateMethod n) (tol : ℝ) (s s1 : PRState n) (hα : 0 ≤ s.alpha)
    (hstep : polyregStep hull target update_method tol s = StepResult.next s1) :
    s1.prev_loss ≤ s.prev_loss ∧ s1.alpha ≤ s.alpha ∧ 0 ≤ s1.alpha := by
  simp only [polyregStep] at hstep
  by_cases h1 : calc_loss hull target s.lin_coefs < tol
  · rw [if_pos h1] at hstep
    cases hstep
  · rw [if_neg h1] at hstep
    by_cases h2 : calc_loss hull target s.lin_coefs > s.prev_loss
    · rw [if_pos h2] at hstep
      injection hstep with h3
      subst h3
      exact ⟨le_refl _, mul_le_of_le_one_right hα (by norm_num),
        mul_nonneg hα (by norm_num)⟩
    · rw [if_neg h2] at hstep
      injection hstep with h3
      subst h3
      exact ⟨not_lt.mp h2, le_refl _, hα⟩

/-- Helper: the monotone invariant propagated along any number of
non-breaking iterations of the `polyreg` loop. -/
theorem polyregIter_monotone {d n : ℕ} (hull : ConvexHull d n) (target : Fin d → ℝ)
    (update_method : UpdateMethod n) (tol : ℝ) :
    ∀ (k : ℕ) (s s2 : PRState n), 0 ≤ s.alpha →
      polyregIter hull target update_method tol k s = some s2 →
      s2.prev_loss ≤ s.prev_loss ∧ s2.alpha ≤ s.alpha := by
  intro k
  induction k with
  | zero =>
    intro s s2 hα h
    simp only [polyregIter, Option.some.injEq] at h
    subst h
    exact ⟨le_refl _, le_refl _⟩
  | succ k ih =>
    intro s s2 hα h
    simp only [polyregIter] at h
    rcases hstep : polyregStep hull target update_method tol s with c | s1
    · rw [hstep] at h
      cases h
    · rw [hstep] at h
      have hinv := polyregStep_next_monotone hull target update_method tol s s1 hα hstep
      have htail := ih s1 s2 hinv.2.2 h
      exact ⟨le_trans htail.1 hinv.1, le_trans htail.2 hinv.2.1⟩

/-- C2: on a non-stopping iteration, if the pre-update loss is strictly
greater than `prev_loss` then `alpha` is multiplied by `0.9` and the
coefficients revert to their pre-update value, otherwise `prev_loss` is set
to the current loss; consequently the recorded `prev_loss` values along any
run are non-increasing and `alpha` never increases. -/
theorem C2_backoff_policy {d n : ℕ} (hull : ConvexHull d n) (target : Fin d → ℝ)
    (update_method : UpdateMethod n) (tol : ℝ) (s : PRState n)
    (hα : 0 ≤ s.alpha) (hns : ¬ calc_loss hull target s.lin_coefs < tol) :
    (calc_loss hull target s.lin_coefs > s.prev_loss →
      polyregStep hull target update_method tol s =
        StepResult.next ⟨s.lin_coefs, s.alpha * 0.9, s.prev_loss⟩) ∧
    (¬ calc_loss hull target s.lin_coefs > s.prev_loss →
      polyregStep hull target update_method tol s =
        StepResult.next
          ⟨s.lin_coefs + update_method s.lin_coefs (inverse_gradient hull target) s.alpha,
            s.alpha, calc_loss hull target s.lin_coefs⟩) ∧
    (∀ s1, polyregStep hull target update_method tol s = StepResult.next s1 →
      s1.prev_loss ≤ s.prev_loss ∧ s1.alpha ≤ s.alpha) ∧
    (∀ k s2, polyregIter hull target update_method tol k s = some s2 →
      s2.prev_loss ≤ s.prev_loss ∧ s2.alpha ≤ s.alpha) := by
  refine ⟨?_, ?_, ?_, ?_⟩
  · intro h2
    simp only [polyregStep]
    rw [if_neg hns, if_pos h2]
  · intro h2
    simp only [polyregStep]
    rw [if_neg hns, if_neg h2]
  · intro s1 hstep
    have hinv := polyregStep_next_monotone hull target update_method tol s s1 hα hstep
    exact ⟨hinv.1, hinv.2.1⟩
  · intro k s2 h
    exact polyregIter_monotone hull target update_method tol k s s2 hα h

theorem C2_witness :
    0 ≤ st_mid.alpha ∧
    ¬ calc_loss hull1 target_twenty st_mid.lin_coefs < 1 / 100 ∧
    calc_loss hull1 target_twenty st_mid.lin_coefs > st_mid.prev_loss ∧
    polyregStep hull1 target_twenty euler_update (1 / 100) st_mid =
      StepResult.next ⟨st_mid.lin_coefs, st_mid.alpha * 0.9, st_mid.prev_loss⟩ := by
  have hloss : calc_loss hull1 target_twenty st_mid.lin_coefs = 400 := by
    norm_num [calc_loss, dotV, calc_error, get_convex_combination, ConvexHull.base,
      Matrix.mulVec, Matrix.dotProduct, hull1, target_twenty, st_mid, Fin.sum_univ_one]
  have hα : (0 : ℝ) ≤ st_mid.alpha := by norm_num [st_mid]
  have hns : ¬ calc_loss hull1 target_twenty st_mid.lin_coefs < 1 / 100 := by
    rw [hloss]; norm_num
  have hgt : calc_loss hull1 target_twenty st_mid.lin_coefs > st_mid.prev_loss := by
    rw [hloss]; norm_num [st_mid]
  exact ⟨hα, hns, hgt,
    (C2_backoff_policy hull1 target_twenty euler_update (1 / 100) st_mid hα hns).1 hgt⟩

/-- C5 (amended): `prev_loss` starts at the sentinel `100000.0`, so the
first iteration does not trigger backoff on any input whose initial loss is
at most `100000`; the sentinel is however NOT larger than every loss the
run can produce, and an input with initial loss above `100000` does trigger
backoff on iteration 0. -/
theorem C5_first_iteration_no_backoff {d n : ℕ} (hull : ConvexHull d n)
    (target : Fin d → ℝ) (init_lin_coefs : Fin n → ℝ) (alpha tol : ℝ)
    (update_method : UpdateMethod n)
    (h : calc_loss hull target init_lin_coefs ≤ 100000) :
    polyregStep hull target update_method tol (⟨init_lin_coefs, alpha, 100000⟩ : PRState n) =
      StepResult.done
        (init_lin_coefs + update_method init_lin_coefs (inverse_gradient hull target) alpha) ∨
    polyregStep hull target update_method tol (⟨init_lin_coefs, alpha, 100000⟩ : PRState n) =
      StepResult.next
        ⟨init_lin_coefs + update_method init_lin_coefs (inverse_gradient hull target) alpha,
          alpha, calc_loss hull target init_lin_coefs⟩ := by
  by_cases h1 : calc_loss hull target init_lin_coefs < tol
  · left
    simp only [polyregStep]
    rw [if_pos h1]
  · right
    simp only [polyregStep]
    rw [if_neg h1, if_neg (not_lt.mpr h)]

theorem C5_witness :
    calc_loss hull1 target_zero (fun _ => (0 : ℝ)) ≤ 100000 ∧
    (polyregStep hull1 target_zero euler_update (1 / 10000)
        (⟨fun _ => (0 : ℝ), 1, 100000⟩ : PRState 1) =
      StepResult.done
        ((fun _ => (0 : ℝ)) +
          euler_update (fun _ => (0 : ℝ)) (inverse_gradient hull1 target_zero) 1) ∨
    polyregStep hull1 target_zero euler_update (1 / 10000)
        (⟨fun _ => (0 : ℝ), 1, 100000⟩ : PRState 1) =
      StepResult.next
        ⟨(fun _ => (0 : ℝ)) +
            euler_update (fun _ => (0 : ℝ)) (inverse_gradient hull1 target_zero) 1,
          1, calc_loss hull1 target_zero (fun _ => (0 : ℝ))⟩) := by
  have h : calc_loss hull1 target_zero (fun _ => (0 : ℝ)) ≤ 100000 := by
    norm_num [calc_loss, dotV, calc_error, get_convex_combination, ConvexHull.base,
      Matrix.mulVec, Matrix.dotProduct, hull1, target_zero]
  exact ⟨h,
    C5_first_iteration_no_backoff hull1 target_zero (fun _ => (0 : ℝ)) 1 (1 / 10000)
      euler_update h⟩

theorem C5_counterexample :
    calc_loss hull1 target_big st0.lin_coefs > st0.prev_loss ∧
    polyregStep hull1 target_big euler_update (1 / 10000) st0 =
      StepResult.next ⟨st0.lin_coefs, st0.alpha * 0.9, st0.prev_loss⟩ := by
  have hloss : calc_loss hull1 target_big st0.lin_coefs = 160000 := by
    norm_num [calc_loss, dotV, calc_error, get_convex_combination, ConvexHull.base,
      Matrix.mulVec, Matrix.dotProduct, hull1, target_big, st0, Fin.sum_univ_one]
  have hgt : calc_loss hull1 target_big st0.lin_coefs > st0.prev_loss := by
    rw [hloss]; norm_num [st0]
  have hns : ¬ calc_loss hull1 target_big st0.lin_coefs < 1 / 10000 := by
    rw [hloss]; norm_num
  refine ⟨hgt, ?_⟩
  simp only [polyregStep]
  rw [if_neg hns, if_pos hgt]

/-! ### 10. The loss gradient: C3 -/

/-- Helper: the softmax denominator is positive (any index witnesses
non-emptiness). -/
theorem sum_exp_pos {n : ℕ} (x : Fin n → ℝ) (j : Fin n) : 0 < ∑ k, Real.exp (x k) :=
  Finset.sum_pos (fun k _ => Real.exp_pos (x k)) ⟨j, Finset.mem_univ j⟩

/-- Helper: derivative of `exp` of one coordinate of an updated vector. -/
theorem hasDerivAt_exp_update {n : ℕ} (x : Fin n → ℝ) (j k : Fin n) :
    HasDerivAt (fun t => Real.exp (Function.update x j t k))
      (if k = j then Real.exp (x j) else 0) (x j) := by
  by_cases hkj : k = j
  · subst hkj
    rw [if_pos rfl]
    have hfun : (fun t => Real.exp (Function.update x k t k)) = Real.exp := by
      funext t
      rw [Function.update_same]
    rw [hfun]
    exact Real.hasDerivAt_exp (x k)
  · rw [if_neg hkj]
    have hfun : (fun t => Real.exp (Function.update x j t k)) = fun _ => Real.exp (x k) := by
      funext t
      rw [Function.update_noteq hkj]
    rw [hfun]
    exact hasDerivAt_const _ _

/-- Helper: the partial derivative of `softmax` component `k` along
coordinate `j` is `softmax x k * (δ_kj - softmax x j)`: the softmax
Jacobian. -/
theorem hasDerivAt_softmax {n : ℕ} (x : Fin n → ℝ) (j k : Fin n) :
    HasDerivAt (fun t => softmax (Function.update x j t) k)
      (softmax x k * ((if k = j then 1 else 0) - softmax x j)) (x j) := by
  have hS0 : (0 : ℝ) < ∑ l, Real.exp (x l) := sum_exp_pos x j
  have hden : HasDerivAt (fun t => ∑ l, Real.exp (Function.update x j t l))
      (Real.exp (x j)) (x j) := by
    have h1 : HasDerivAt (fun t => ∑ l, Real.exp (Function.update x j t l))
        (∑ l, if l = j then Real.exp (x j) else 0) (x j) :=
      HasDerivAt.sum (fun l _ => hasDerivAt_exp_update x j l)
    simpa using h1
  have hden0 : (fun t => ∑ l, Real.exp (Function.update x j t l)) (x j) ≠ 0 := by
    simp only [Function.update_eq_self]
    exact hS0.ne'
  have hdiv := (hasDerivAt_exp_update x j k).div hden hden0
  simp only [Function.update_eq_self] at hdiv
  have heq : ((if k = j then Real.exp (x j) else 0) * (∑ l, Real.exp (x l)) -
        Real.exp (x k) * Real.exp (x j)) / (∑ l, Real.exp (x l)) ^ 2 =
      softmax x k * ((if k = j then 1 else 0) - softmax x j) := by
    simp only [softmax]
    by_cases hkj : k = j
    · subst hkj
      rw [if_pos rfl, if_pos rfl]
      field_simp
      ring
    · rw [if_neg hkj, if_neg hkj]
      field_simp
      ring
  rw [heq] at hdiv
  simpa only [softmax] using hdiv

/-- Helper: the entries of `comb_gradient` agree with the softmax Jacobian
written as `softmax x k * (δ_kj - softmax x j)`. -/
theorem comb_gradient_apply {n : ℕ} (x : Fin n → ℝ) (j k : Fin n) :
    comb_gradient x k j = softmax x k * ((if k = j then 1 else 0) - softmax x j) := by
  simp only [comb_gradient, Matrix.sub_apply, Matrix.diagonal_apply, Matrix.of_apply]
  by_cases hkj : k = j
  · subst hkj
    rw [if_pos rfl, if_pos rfl]
    ring
  · rw [if_neg hkj, if_neg hkj]
    ring

/-- Helper: the true partial derivative of the loss along coordinate `j` is
`2 * loss_gradient j` — the code's `loss_gradient` is half the chain-rule
gradient of `dot(error, error)`. -/
theorem hasDerivAt_calc_loss {d n : ℕ} (hull : ConvexHull d n) (target : Fin d → ℝ)
    (x : Fin n → ℝ) (j : Fin n) :
    HasDerivAt (fun t => calc_loss hull target (Function.update x j t))
      (2 * loss_gradient hull target x j) (x j) := by
  have hcombo : ∀ i, HasDerivAt (fun t => get_convex_combination hull (Function.update x j t) i)
      (∑ k, hull.base i k * (softmax x k * ((if k = j then 1 else 0) - softmax x j))) (x j) := by
    intro i
    have h1 : HasDerivAt (fun t => ∑ k, hull.base i k * softmax (Function.update x j t) k)
        (∑ k, hull.base i k * (softmax x k * ((if k = j then 1 else 0) - softmax x j))) (x j) :=
      HasDerivAt.sum (fun k _ => (hasDerivAt_softmax x j k).const_mul (hull.base i k))
    simpa only [get_convex_combination, Matrix.mulVec, Matrix.dotProduct] using h1
  have herr : ∀ i, HasDerivAt (fun t => calc_error hull target (Function.update x j t) i)
      (-(∑ k, hull.base i k * (softmax x k * ((if k = j then 1 else 0) - softmax x j)))) (x j) := by
    intro i
    have h2 := (hasDerivAt_const (x j) (target i)).sub (hcombo i)
    simpa only [calc_error, Pi.sub_apply, zero_sub] using h2
  have hloss : HasDerivAt (fun t => calc_loss hull target (Function.update x j t))
      (∑ i, ((-(∑ k, hull.base i k * (softmax x k * ((if k = j then 1 else 0) - softmax x j)))) *
          calc_error hull target x i +
        calc_error hull target x i *
          (-(∑ k, hull.base i k * (softmax x k * ((if k = j then 1 else 0) - softmax x j)))))) (x j) := by
    have h3 : HasDerivAt (fun t => ∑ i, calc_error hull target (Function.update x j t) i *
        calc_error hull target (Function.update x j t) i)
        (∑ i, ((-(∑ k, hull.base i k * (softmax x k * ((if k = j then 1 else 0) - softmax x j)))) *
            calc_error hull target (Function.update x j (x j)) i +
          calc_error hull target (Function.update x j (x j)) i *
            (-(∑ k, hull.base i k * (softmax x k * ((if k = j then 1 else 0) - softmax x j)))))) (x j) :=
      HasDerivAt.sum (fun i _ => (herr i).mul (herr i))
    simp only [Function.update_eq_self] at h3
    simpa only [calc_loss, dotV] using h3
  have h2 : loss_gradient hull target x j =
      ∑ k, (-(∑ i, calc_error hull target x i * hull.base i k)) *
        (softmax x k * ((if k = j then 1 else 0) - softmax x j)) := by
    simp only [loss_gradient, Matrix.vecMul, Matrix.dotProduct, Pi.neg_apply]
    exact Finset.sum_congr rfl (fun k _ => by rw [comb_gradient_apply])
  have hval : (∑ i, ((-(∑ k, hull.base i k * (softmax x k * ((if k = j then 1 else 0) - softmax x j)))) *
        calc_error hull target x i +
      calc_error hull target x i *
        (-(∑ k, hull.base i k * (softmax x k * ((if k = j then 1 else 0) - softmax x j)))))) =
      2 * loss_gradient hull target x j := by
    rw [h2, Finset.mul_sum]
    calc ∑ i, ((-(∑ k, hull.base i k * (softmax x k * ((if k = j then 1 else 0) - softmax x j)))) *
          calc_error hull target x i +
        calc_error hull target x i *
          (-(∑ k, hull.base i k * (softmax x k * ((if k = j then 1 else 0) - softmax x j)))))
        = ∑ i, ∑ k, (-2) * (calc_error hull target x i *
            (hull.base i k * (softmax x k * ((if k = j then 1 else 0) - softmax x j)))) := by
          refine Finset.sum_congr rfl (fun i _ => ?_)
          rw [show ((-(∑ k, hull.base i k * (softmax x k * ((if k = j then 1 else 0) - softmax x j)))) *
              calc_error hull target x i +
            calc_error hull target x i *
              (-(∑ k, hull.base i k * (softmax x k * ((if k = j then 1 else 0) - softmax x j))))) =
            (-2) * (calc_error hull target x i *
              ∑ k, hull.base i k * (softmax x k * ((if k = j then 1 else 0) - softmax x j)))
            from by ring]
          rw [Finset.mul_sum, Finset.mul_sum]
      _ = ∑ k, ∑ i, (-2) * (calc_error hull target x i *
            (hull.base i k * (softmax x k * ((if k = j then 1 else 0) - softmax x j)))) :=
          Finset.sum_comm
      _ = ∑ k, 2 * ((-(∑ i, calc_error hull target x i * hull.base i k)) *
            (softmax x k * ((if k = j then 1 else 0) - softmax x j))) := by
          refine Finset.sum_congr rfl (fun k _ => ?_)
          rw [show (2 : ℝ) * ((-(∑ i, calc_error hull target x i * hull.base i k)) *
              (softmax x k * ((if k = j then 1 else 0) - softmax x j))) =
            ((-2) * (softmax x k * ((if k = j then 1 else 0) - softmax x j))) *
              (∑ i, calc_error hull target x i * hull.base i k) from by ring]
          rw [Finset.mul_sum]
          exact Finset.sum_congr rfl (fun i _ => by ring)
  rw [hval] at hloss
  exact hloss

/-- C3 (amended): `loss_gradient` returns
`-(error @ hull.base) @ softmax_jacobian(lin_coefs)` with
`softmax_jacobian = diag(coefs) - outer(coefs, coefs)`,
`coefs = softmax(lin_coefs)`; this expression equals HALF the chain-rule
gradient of the loss `dot(error, error)` with respect to `lin_coefs`
(equivalently, the exact gradient of `(1/2)·dot(error, error)`): the true
partial derivative along each coordinate `j` is `2 * loss_gradient j`. -/
theorem C3_loss_gradient {d n : ℕ} (hull : ConvexHull d n) (target : Fin d → ℝ)
    (x : Fin n → ℝ) :
    loss_gradient hull target x =
      Matrix.vecMul (-(Matrix.vecMul (calc_error hull target x) hull.base))
        (comb_gradient x) ∧
    comb_gradient x =
      Matrix.diagonal (softmax x) - Matrix.of (fun k l => softmax x k * softmax x l) ∧
    ∀ j, HasDerivAt (fun t => calc_loss hull target (Function.update x j t))
      (2 * loss_gradient hull target x j) (x j) :=
  ⟨rfl, rfl, fun j => hasDerivAt_calc_loss hull target x j⟩

theorem C3_counterexample :
    ¬ HasDerivAt (fun t => calc_loss hullC3 targetC3 (Function.update xC3 0 t))
      (loss_gradient hullC3 targetC3 xC3 0) (xC3 0) := by
  intro hc
  have h2 := hasDerivAt_calc_loss hullC3 targetC3 xC3 0
  have heq := hc.unique h2
  have hval : loss_gradient hullC3 targetC3 xC3 0 = -(1 / 8) := by
    simp [loss_gradient, Matrix.vecMul, Matrix.dotProduct, comb_gradient_apply,
      calc_error, get_convex_combination, Matrix.mulVec, softmax, hullC3, targetC3,
      xC3, ConvexHull.base, Fin.sum_univ_two, Fin.sum_univ_one, Real.exp_zero,
      Pi.neg_apply, Pi.sub_apply, Matrix.of_apply]
    norm_num
  rw [hval] at heq
  norm_num at heq
